import Mathlib

/-!
Verification of the yad2-scraper change-detection and delivery pipeline.

The JavaScript source (index.js iterations; the multi-page variant is the
richest and is the one embedded here) is shallowly embedded: pure functions
become Lean functions, the stateful persisted-file access of
`checkIfHasNewItem` becomes explicit state passing (`Option (List String)`
is the per-topic file: `none` means the file does not exist, `some l` means
it exists and parses to the string array `l`), and the HTTP transport and
page fetcher become explicit function parameters.

Modelling notes, stated once here:
* `new URL(u)` is modelled by `parseUrl`, a simplified WHATWG parser that
  accepts hierarchical `scheme://host/path?query#fragment` URLs and rejects
  everything else.  This covers every URL the program constructs (absolute
  http/https links) and makes all other strings unparseable, matching the
  `try { new URL(u) } catch { ... }` pattern in the source.
* JavaScript string lengths are UTF-16 code-unit counts; the model uses
  code-point counts.  All concrete inputs used in theorems are ASCII, where
  the two coincide.
* `Array.from(new Set(xs))` is insertion-ordered deduplication,
  `xs.slice(-n)` keeps the last `n` elements, and `s.slice(0, e)` with a
  negative `e` counts from the end of the string; all three are modelled
  with those exact semantics.
-/

/-- Characters allowed by the item-id capture class `[A-Za-z0-9_-]`. -/
def isIdChar (c : Char) : Bool :=
  ('A' ≤ c && c ≤ 'Z') || ('a' ≤ c && c ≤ 'z') || ('0' ≤ c && c ≤ '9') || c = '_' || c = '-'

/-- Case-insensitive comparison of one character against a lower/upper pair,
modelling the regex `i` flag. -/
def isCi (c lo hi : Char) : Bool :=
  c = lo || c = hi

/-- Test for the regex `/^https?:\/\//i` used by the legacy-link migration in
`checkIfHasNewItem`. -/
def startsWithHttp (s : String) : Bool :=
  match s.data with
  | c0 :: c1 :: c2 :: c3 :: rest =>
    isCi c0 'h' 'H' && isCi c1 't' 'T' && isCi c2 't' 'T' && isCi c3 'p' 'P' &&
      (match rest with
       | ':' :: '/' :: '/' :: _ => true
       | c4 :: ':' :: '/' :: '/' :: _ => isCi c4 's' 'S'
       | _ => false)
  | _ => false

/-- Attempt of the regex `/\/item\/([A-Za-z0-9_-]+)/i` at the head of the
character list: a case-insensitive `/item/` marker followed by a non-empty run
of id characters.  Returns the captured run. -/
def itemMatchAt (l : List Char) : Option (List Char) :=
  match l with
  | '/' :: a :: b :: c :: d :: '/' :: rest =>
    if isCi a 'i' 'I' && isCi b 't' 'T' && isCi c 'e' 'E' && isCi d 'm' 'M' then
      match rest.takeWhile isIdChar with
      | [] => none
      | x :: xs => some (x :: xs)
    else none
  | _ => none

/-- Leftmost-match scan of `/\/item\/([A-Za-z0-9_-]+)/i` over a pathname. -/
def itemIdScan : List Char → Option (List Char)
  | [] => none
  | c :: rest =>
    match itemMatchAt (c :: rest) with
    | some run => some run
    | none => itemIdScan rest

/-- Components of a parsed hierarchical URL. -/
structure UrlParts where
  scheme : List Char
  host : List Char
  pathname : List Char
  search : List Char
  frag : List Char
deriving Repr, DecidableEq

/-- Characters allowed after the first character of a URL scheme. -/
def isSchemeChar (c : Char) : Bool :=
  c.isAlpha || c.isDigit || c = '+' || c = '-' || c = '.'

/-- Simplified model of `new URL(u)` for absolute hierarchical URLs
(`scheme://host/path?query#fragment`); every other input is a parse failure,
matching the `catch` branches of the source. -/
def parseUrl (u : String) : Option UrlParts :=
  let l := u.data
  let sch := l.takeWhile isSchemeChar
  let rest := l.dropWhile isSchemeChar
  match sch, rest with
  | c :: _, ':' :: '/' :: '/' :: r =>
    if c.isAlpha then
      let host := r.takeWhile (fun ch => ch ≠ '/' && ch ≠ '?' && ch ≠ '#')
      let afterHost := r.dropWhile (fun ch => ch ≠ '/' && ch ≠ '?' && ch ≠ '#')
      if host.isEmpty then none
      else
        let path := afterHost.takeWhile (fun ch => ch ≠ '?' && ch ≠ '#')
        let afterPath := afterHost.dropWhile (fun ch => ch ≠ '?' && ch ≠ '#')
        some { scheme := sch, host := host,
               pathname := if path.isEmpty then ['/'] else path,
               search := afterPath.takeWhile (fun ch => ch ≠ '#'),
               frag := afterPath.dropWhile (fun ch => ch ≠ '#') }
    else none
  | _, _ => none

/-- Embedding of `getItemId`: parse the link as a URL and run
`pathname.match(/\/item\/([A-Za-z0-9_-]+)/i)`, returning the first capture
group; any parse failure yields `none` (the source returns `null`). -/
def getItemId (u : String) : Option String :=
  match parseUrl u with
  | none => none
  | some parts => (itemIdScan parts.pathname).map fun run => String.mk run

/-- One scraped listing: the `{ image, link }` objects built by the page
scraper. -/
structure Item where
  image : String
  link : String
deriving Repr, DecidableEq

/-- Resolvable identifiers of a poll, in input order (entries whose link has
no extractable id contribute nothing). -/
def pollIds (items : List Item) : List String :=
  items.filterMap fun it => getItemId it.link

/-- Insertion-ordered deduplication relative to an already-seen list;
`dedupAux seen l` keeps the first occurrence of each element of `l` that is
not already in `seen`. -/
def dedupAux (seen : List String) : List String → List String
  | [] => []
  | x :: rest => if seen.contains x then dedupAux seen rest else x :: dedupAux (seen ++ [x]) rest

/-- Model of `Array.from(new Set(l))`: insertion-ordered deduplication. -/
def dedupKeepFirst (l : List String) : List String :=
  dedupAux [] l

/-- Model of `arr.slice(-n)`: the last `n` elements (the whole list when it is
shorter than `n`). -/
def sliceLast (n : Nat) (l : List α) : List α :=
  l.drop (l.length - n)

/-- Retention cap used by the multi-page variant (`slice(-10000)`). -/
def cap : Nat := 10000

/-- Embedding of the legacy migration `prev.map(v => ...)`: values that look
like absolute http(s) links are replaced by their extracted id, keeping the
original string when extraction fails; everything else passes through. -/
def migrateVal (v : String) : String :=
  if startsWithHttp v then (getItemId v).getD v else v

/-- Embedding of `new Set(migrated.filter(Boolean).map(String))` as an
insertion-ordered list: migrate the loaded values, drop falsy (empty)
strings, deduplicate. -/
def knownIdsOf (prev : List String) : List String :=
  dedupKeepFirst ((prev.map migrateVal).filter (fun s => s ≠ ""))

/-- Embedding of the classification loop of `checkIfHasNewItem`: entries with
no resolvable id are skipped, entries whose id is not in the known set are
collected in input order. -/
def newItemsOf (known : List String) (items : List Item) : List Item :=
  items.filter fun it =>
    match getItemId it.link with
    | none => false
    | some id => !(known.contains id)

/-- Embedding of the id-accumulation loops of `checkIfHasNewItem` (both the
bootstrap `allIds` set and the merge `for (const it of items) knownIds.add(id)`
loop): fold the resolvable ids of the poll into an insertion-ordered set. -/
def collectIds (start : List String) (items : List Item) : List String :=
  items.foldl
    (fun k it =>
      match getItemId it.link with
      | some id => if k.contains id then k else k ++ [id]
      | none => k)
    start

/-- Embedding of `checkIfHasNewItem(items, topic, { bootstrapIfEmpty })` from
the multi-page variant.  The persisted per-topic file is passed in as
`state` (`none` = file absent) and the result pairs the returned `newItems`
with the array written to the file (`none` = no write performed). -/
def checkIfHasNewItem (items : List Item) (state : Option (List String))
    (bootstrapIfEmpty : Bool) : List Item × Option (List String) :=
  let existedBefore := state.isSome
  let prev := state.getD []
  let known := knownIdsOf prev
  let newItems := newItemsOf known items
  if (!existedBefore || known.isEmpty) && bootstrapIfEmpty then
    ([], some (sliceLast cap (collectIds [] items)))
  else
    (newItems, if items.length > 0 then some (sliceLast cap (collectIds known items)) else none)

/-- File state after a call: a performed write replaces the file contents, no
write leaves them unchanged. -/
def applyWrite (st : Option (List String)) (w : Option (List String)) : Option (List String) :=
  match w with
  | some arr => some arr
  | none => st

/-- File state after one classify call. -/
def stepState (b : Bool) (st : Option (List String)) (items : List Item) :
    Option (List String) :=
  applyWrite st (checkIfHasNewItem items st b).2

/-- File state after a sequence of polls starting from no file. -/
def runPolls (b : Bool) (polls : List (List Item)) : Option (List String) :=
  polls.foldl (stepState b) none

/-- Insertion order of the merged known-id set: previously known ids first
(in their stored order), then newly encountered ids in first-seen order. -/
def mergedIds (known pids : List String) : List String :=
  known ++ dedupAux known pids

/-- Outcome of one page fetch+extract (`scrapeItemsFromSinglePage`): either the
page's items together with an optional detected next-page link, or a raised
failure (fetch error, bot detection, ...). -/
inductive FetchResult where
  | ok (items : List Item) (nextUrl : Option String)
  | fail
deriving Repr, DecidableEq

/-- Query-parameter entries of a search string, split on `&` with empty
segments dropped, as `URLSearchParams` does. -/
def splitAmp : List Char → List (List Char)
  | [] => [[]]
  | '&' :: rest => [] :: splitAmp rest
  | c :: rest =>
    match splitAmp rest with
    | [] => [[c]]
    | g :: gs => (c :: g) :: gs

/-- Key of one `key=value` query entry. -/
def entryKey (e : List Char) : List Char :=
  e.takeWhile (fun c => c ≠ '=')

/-- Model of `URLSearchParams.set(key, val)`: replace the first entry with
that key in place, delete later entries with the same key, append when the
key is absent. -/
def setParam (key val : List Char) : List (List Char) → List (List Char)
  | [] => [key ++ '=' :: val]
  | e :: rest =>
    if entryKey e = key then (key ++ '=' :: val) :: rest.filter (fun e2 => entryKey e2 ≠ key)
    else e :: setParam key val rest

/-- Serialization of URL components back to a string (percent-encoding
normalization is not modelled; the values written by the program are plain
digits). -/
def urlToString (p : UrlParts) (entries : List (List Char)) : String :=
  let search := if entries.isEmpty then [] else '?' :: (entries.intersperse ['&']).flatten
  String.mk (p.scheme ++ ':' :: '/' :: '/' :: p.host ++ p.pathname ++ search ++ p.frag)

/-- Query entries carried by a parsed URL (the search component without its
leading `?`). -/
def searchEntries (p : UrlParts) : List (List Char) :=
  match p.search with
  | [] => []
  | _ :: s => (splitAmp s).filter (fun e => e ≠ [])

/-- Embedding of `buildPageUrl`: page 1 is the base URL unchanged; later pages
set a `page` query parameter, falling back to plain string concatenation when
the base does not parse as a URL. -/
def buildPageUrl (baseUrl : String) (page : Nat) : String :=
  if page ≤ 1 then baseUrl
  else
    match parseUrl baseUrl with
    | some parts => urlToString parts (setParam ['p', 'a', 'g', 'e'] (toString page).data (searchEntries parts))
    | none => baseUrl ++ (if baseUrl.data.contains '?' then "&" else "?") ++ "page=" ++ toString page

/-- Embedding of the per-item aggregation loop of `collectItemsAcrossPages`:
run-level dedupe by id, skipping entries with no resolvable id. -/
def aggStep (seen : List String) (agg : List Item) : List Item → List String × List Item
  | [] => (seen, agg)
  | it :: rest =>
    match getItemId it.link with
    | none => aggStep seen agg rest
    | some id =>
      if seen.contains id then aggStep seen agg rest
      else aggStep (seen ++ [id]) (agg ++ [it]) rest

/-- Embedding of the page loop of `collectItemsAcrossPages`.  `r` is the
number of loop iterations left (`maxPages - p + 1` at entry), `p` the current
1-based page index, `pageUrl` the carried next-link URL and `usedNext` the
follow-next-link mode flag.  A failed page is skipped; in follow mode an
absent next link ends the loop early. -/
def collectGo (t : String → FetchResult) (base : String) (maxPages : Nat) :
    Nat → Nat → String → Bool → List String → List Item → List Item
  | 0, _, _, _, _, agg => agg
  | r + 1, p, pageUrl, usedNext, seen, agg =>
    let target := if usedNext then pageUrl else buildPageUrl base p
    match t target with
    | .fail => collectGo t base maxPages r (p + 1) pageUrl usedNext seen agg
    | .ok items nextUrl =>
      let s := aggStep seen agg items
      match nextUrl with
      | some nu =>
        if p < maxPages then collectGo t base maxPages r (p + 1) nu true s.1 s.2
        else collectGo t base maxPages r (p + 1) pageUrl usedNext s.1 s.2
      | none =>
        if usedNext then s.2
        else collectGo t base maxPages r (p + 1) pageUrl usedNext s.1 s.2

/-- Embedding of `collectItemsAcrossPages(baseUrl, maxPages)` with the page
fetcher `t` passed explicitly. -/
def collectItemsAcrossPages (t : String → FetchResult) (baseUrl : String) (maxPages : Nat) :
    List Item :=
  collectGo t baseUrl maxPages maxPages 1 baseUrl false [] []

/-- Raw concatenation of the items of every successfully fetched page, under
the same control flow as `collectGo` (same pages visited, same early exit),
without the run-level dedupe. -/
def visitGo (t : String → FetchResult) (base : String) (maxPages : Nat) :
    Nat → Nat → String → Bool → List Item
  | 0, _, _, _ => []
  | r + 1, p, pageUrl, usedNext =>
    let target := if usedNext then pageUrl else buildPageUrl base p
    match t target with
    | .fail => visitGo t base maxPages r (p + 1) pageUrl usedNext
    | .ok items nextUrl =>
      items ++
        match nextUrl with
        | some nu =>
          if p < maxPages then visitGo t base maxPages r (p + 1) nu true
          else visitGo t base maxPages r (p + 1) pageUrl usedNext
        | none =>
          if usedNext then []
          else visitGo t base maxPages r (p + 1) pageUrl usedNext

/-- Items of every successfully fetched page of a run, in visit order. -/
def visitItems (t : String → FetchResult) (baseUrl : String) (maxPages : Nat) : List Item :=
  visitGo t baseUrl maxPages maxPages 1 baseUrl false

/-- URLs targeted by each loop iteration of `collectGo`, in order (the target
is computed before the fetch, so failed pages contribute their URL too). -/
def fetchedUrlsGo (t : String → FetchResult) (base : String) (maxPages : Nat) :
    Nat → Nat → String → Bool → List String
  | 0, _, _, _ => []
  | r + 1, p, pageUrl, usedNext =>
    let target := if usedNext then pageUrl else buildPageUrl base p
    target ::
      match t target with
      | .fail => fetchedUrlsGo t base maxPages r (p + 1) pageUrl usedNext
      | .ok _ nextUrl =>
        match nextUrl with
        | some nu =>
          if p < maxPages then fetchedUrlsGo t base maxPages r (p + 1) nu true
          else fetchedUrlsGo t base maxPages r (p + 1) pageUrl usedNext
        | none =>
          if usedNext then []
          else fetchedUrlsGo t base maxPages r (p + 1) pageUrl usedNext

/-- Dedupe of an item list by extracted id relative to an already-seen id
list: first occurrence of each id kept, unresolvable entries dropped. -/
def dedupItemsFrom (seen : List String) : List Item → List Item
  | [] => []
  | it :: rest =>
    match getItemId it.link with
    | none => dedupItemsFrom seen rest
    | some id =>
      if seen.contains id then dedupItemsFrom seen rest
      else it :: dedupItemsFrom (seen ++ [id]) rest

/-- Seen-id list after folding an item list through the run-level dedupe. -/
def seenAfter (seen : List String) : List Item → List String
  | [] => seen
  | it :: rest =>
    match getItemId it.link with
    | none => seenAfter seen rest
    | some id =>
      if seen.contains id then seenAfter seen rest
      else seenAfter (seen ++ [id]) rest

/-- Error thrown by the transport: the HTTP-ish status (after the source's
`e?.response?.status || e?.status` coalescing) and the two possible
retry-after hints (`none` models an absent or non-numeric value). -/
structure SendErr where
  status : Option Nat
  retryAfterParam : Option Nat
  retryAfterHeader : Option Nat
deriving Repr, DecidableEq

/-- Outcome of one raw transport call. -/
inductive SendOutcome where
  | ok
  | err (e : SendErr)
deriving Repr

/-- Model of `Number(retryAfterParam || retryAfterHeader)` restricted to its
finite results: a present non-zero parameter wins; a zero parameter is falsy
in JavaScript and defers to the header. -/
def effectiveRetryAfter (e : SendErr) : Option Nat :=
  match e.retryAfterParam with
  | some v => if v = 0 then e.retryAfterHeader else some v
  | none => e.retryAfterHeader

/-- Sleep duration chosen by `safeSend` for a retry: the server hint in
milliseconds when finite, otherwise the exponential fallback
`1000 * 2 ^ attempt`. -/
def backoffMs (e : SendErr) (attempt : Nat) : Nat :=
  match effectiveRetryAfter e with
  | some s => s * 1000
  | none => 1000 * 2 ^ attempt

/-- Embedding of the retry loop of `safeSend`.  The transport `t` is indexed
by the attempt counter (one call per loop iteration); `fuel` bounds the
recursion and is kept at `maxRetries + 1 - attempt`, which the `attempt <
maxRetries` guard never exhausts.  Returns the outcome together with the list
of sleeps performed, in order. -/
def safeSendGo (t : Nat → SendOutcome) (maxRetries : Nat) :
    Nat → Nat → List Nat → Except SendErr Unit × List Nat
  | 0, _, sleeps => (Except.ok (), sleeps)
  | fuel + 1, attempt, sleeps =>
    match t attempt with
    | .ok => (Except.ok (), sleeps)
    | .err e =>
      if e.status = some 429 ∧ attempt < maxRetries then
        safeSendGo t maxRetries fuel (attempt + 1) (sleeps ++ [backoffMs e attempt])
      else (Except.error e, sleeps)

/-- Embedding of `safeSend(telenode, chatId, text, { maxRetries })`: retry
only on status 429, up to `maxRetries` retries, sleeping `backoffMs` between
attempts; every other error is re-thrown at once. -/
def safeSend (t : Nat → SendOutcome) (maxRetries : Nat) : Except SendErr Unit × List Nat :=
  safeSendGo t maxRetries (maxRetries + 1) 0 []

/-- Model of `s.slice(0, stop)`: a negative `stop` counts from the end of the
string. -/
def jsSliceTo (s : String) (stop : Int) : String :=
  let len : Int := s.length
  let e := if stop < 0 then max (len + stop) 0 else min stop len
  String.mk (s.data.take e.toNat)

/-- Embedding of the line loop of `chunkLinesByChars`: greedy packing against
the budget `maxChars - 40` (40 characters reserved for the part tag), with the
hard-truncation branch for a line that overflows an empty current chunk. -/
def chunkGo (baseHeader : String) (maxChars : Int) :
    List String → List String → Int → List (List String) → List (List String)
  | [], curr, _, chunks => if curr.isEmpty then chunks else chunks ++ [curr]
  | line :: rest, curr, currLen, chunks =>
    let lineLen : Int := line.length + 1
    if currLen + lineLen > maxChars - 40 then
      if curr.isEmpty then
        let truncated := jsSliceTo line (maxChars - (baseHeader.length : Int) - 40 - 10) ++ "…"
        chunkGo baseHeader maxChars rest [] ((baseHeader.length : Int) + 2) (chunks ++ [[truncated]])
      else
        chunkGo baseHeader maxChars rest [line] ((baseHeader.length : Int) + 2 + lineLen)
          (chunks ++ [curr])
    else
      chunkGo baseHeader maxChars rest (curr ++ [line]) (currLen + lineLen) chunks

/-- Embedding of `chunkLinesByChars(lines, baseHeader, maxChars)`. -/
def chunkLinesByChars (lines : List String) (baseHeader : String) (maxChars : Int) :
    List (List String) :=
  chunkGo baseHeader maxChars lines [] ((baseHeader.length : Int) + 2) []

/-- Part tag appended to the header of chunk `i` of `n`. -/
def partTagStr (i n : Nat) : String :=
  " (part " ++ toString i ++ "/" ++ toString n ++ ")"

/-- Rendering of one chunk by `notifyNewItems`: header, part tag when there is
more than one chunk, blank line, lines joined by newlines. -/
def renderMessage (baseHeader : String) (n i : Nat) (group : List String) : String :=
  baseHeader ++ (if n > 1 then partTagStr i n else "") ++ "\n\n" ++ String.intercalate "\n" group

/-- Messages sent by `notifyNewItems` for the given display lines: the chunks
of `chunkLinesByChars`, each rendered with its 1-based part index. -/
def notifyMessages (lines : List String) (baseHeader : String) (maxChars : Int) : List String :=
  let groups := chunkLinesByChars lines baseHeader maxChars
  groups.mapIdx fun i g => renderMessage baseHeader groups.length (i + 1) g

/-! Helper lemmas about the insertion-ordered set model. -/

theorem mem_dedupAux {x : String} : ∀ {s l : List String}, x ∈ dedupAux s l ↔ x ∈ l ∧ x ∉ s := by
  intro s l
  induction l generalizing s with
  | nil => simp [dedupAux]
  | cons y rest ih =>
    cases hy : s.contains y with
    | true =>
      have hmem : y ∈ s := List.elem_iff.mp hy
      simp only [dedupAux, hy, if_true, List.mem_cons, ih]
      constructor
      · exact fun ⟨hx, hs⟩ => ⟨Or.inr hx, hs⟩
      · rintro ⟨hx | hx, hs⟩
        · exact absurd (hx ▸ hmem) hs
        · exact ⟨hx, hs⟩
    | false =>
      have hmem : y ∉ s := by
        intro h
        have h2 : s.contains y = true := List.elem_iff.mpr h
        rw [h2] at hy
        simp at hy
      have hstep : dedupAux s (y :: rest) = y :: dedupAux (s ++ [y]) rest := by
        simp only [dedupAux, hy, Bool.false_eq_true, if_false]
      rw [hstep]
      simp only [List.mem_cons, ih]
      constructor
      · rintro (rfl | ⟨hx, hs⟩)
        · exact ⟨Or.inl rfl, hmem⟩
        · exact ⟨Or.inr hx, fun hxs => hs (List.mem_append_left _ hxs)⟩
      · rintro ⟨hxy | hx, hs⟩
        · exact Or.inl hxy
        · by_cases hxy : x = y
          · exact Or.inl hxy
          · refine Or.inr ⟨hx, fun hm => ?_⟩
            rcases List.mem_append.mp hm with h | h
            · exact hs h
            · exact hxy (List.mem_singleton.mp h)

theorem dedupAux_nodup : ∀ (s l : List String), (dedupAux s l).Nodup := by
  intro s l
  induction l generalizing s with
  | nil => simp [dedupAux]
  | cons y rest ih =>
    cases hy : s.contains y with
    | true => simpa only [dedupAux, hy, if_true] using ih s
    | false =>
      simp only [dedupAux, hy, Bool.false_eq_true, if_false]
      refine List.nodup_cons.mpr ⟨fun hmem => ?_, ih _⟩
      have := (mem_dedupAux.mp hmem).2
      exact this (List.mem_append_right _ (List.mem_singleton.mpr rfl))

theorem dedupAux_eq_self {l : List String} (hnd : l.Nodup) :
    ∀ {s : List String}, (∀ x ∈ l, x ∉ s) → dedupAux s l = l := by
  induction l with
  | nil => intro s _; rfl
  | cons y rest ih =>
    intro s hdisj
    have hy : s.contains y = false := by
      rw [← Bool.not_eq_true]
      intro hcon
      exact hdisj y (List.mem_cons_self _ _) (List.elem_iff.mp hcon)
    simp only [dedupAux, hy, Bool.false_eq_true, if_false]
    have hrest : ∀ x ∈ rest, x ∉ s ++ [y] := by
      intro x hx hmem2
      rcases List.mem_append.mp hmem2 with h | h
      · exact hdisj x (List.mem_cons_of_mem _ hx) h
      · have : x = y := List.mem_singleton.mp h
        exact (List.nodup_cons.mp hnd).1 (this ▸ hx)
    rw [ih (List.nodup_cons.mp hnd).2 hrest]

theorem dedupAux_append (s l₁ l₂ : List String) :
    dedupAux s (l₁ ++ l₂) = dedupAux s l₁ ++ dedupAux (s ++ dedupAux s l₁) l₂ := by
  induction l₁ generalizing s with
  | nil => simp [dedupAux]
  | cons y rest ih =>
    cases hy : s.contains y with
    | true =>
      have h1 : dedupAux s ((y :: rest) ++ l₂) = dedupAux s (rest ++ l₂) := by
        simp only [List.cons_append, dedupAux, hy, if_true, List.append_eq]
      have h2 : dedupAux s (y :: rest) = dedupAux s rest := by
        simp only [dedupAux, hy, if_true]
      rw [h1, h2, ih s]
    | false =>
      have h1 : dedupAux s ((y :: rest) ++ l₂) = y :: dedupAux (s ++ [y]) (rest ++ l₂) := by
        simp only [List.cons_append, dedupAux, hy, Bool.false_eq_true, if_false, List.append_eq]
      have h2 : dedupAux s (y :: rest) = y :: dedupAux (s ++ [y]) rest := by
        simp only [dedupAux, hy, Bool.false_eq_true, if_false]
      rw [h1, h2, ih (s ++ [y])]
      simp [List.append_assoc]

theorem sliceLast_of_le {l : List α} {n : Nat} (h : l.length ≤ n) : sliceLast n l = l := by
  simp [sliceLast, Nat.sub_eq_zero_of_le h]

theorem sliceLast_length_le (n : Nat) (l : List α) : (sliceLast n l).length ≤ n := by
  simp only [sliceLast, List.length_drop]
  omega

theorem mem_pollIds {x : String} {items : List Item} :
    x ∈ pollIds items ↔ ∃ it ∈ items, getItemId it.link = some x := by
  simp [pollIds, List.mem_filterMap]

/-! Facts about extracted identifiers and the legacy migration. -/

/-- Recognizer for the six-character case-insensitive `/item/` marker of the
extraction regex. -/
def isItemMarker (m : List Char) : Bool :=
  match m with
  | ['/', a, b, c, d, '/'] => isCi a 'i' 'I' && isCi b 't' 'T' && isCi c 'e' 'E' && isCi d 'm' 'M'
  | _ => false

theorem head?_dropWhile {p : Char → Bool} :
    ∀ {l : List Char} {c : Char}, (l.dropWhile p).head? = some c → p c = false := by
  intro l
  induction l with
  | nil => intro c h; simp [List.dropWhile] at h
  | cons x rest ih =>
    intro c h
    cases hx : p x with
    | true =>
      rw [List.dropWhile_cons_of_pos hx] at h
      exact ih h
    | false =>
      rw [List.dropWhile_cons_of_neg (by simp [hx])] at h
      simp only [List.head?_cons, Option.some.injEq] at h
      exact h ▸ hx

theorem isItemMarker_spec {m : List Char} (h : isItemMarker m = true) :
    ∃ a b c d, m = ['/', a, b, c, d, '/'] ∧
      (isCi a 'i' 'I' && isCi b 't' 'T' && isCi c 'e' 'E' && isCi d 'm' 'M') = true := by
  unfold isItemMarker at h
  split at h
  · rename_i a b c d
    exact ⟨a, b, c, d, rfl, h⟩
  · exact absurd h (by simp)

theorem itemMatchAt_some {l run : List Char} (h : itemMatchAt l = some run) :
    ∃ m suf, l = m ++ run ++ suf ∧ isItemMarker m = true ∧ run ≠ [] ∧
      (∀ c ∈ run, isIdChar c) ∧ (∀ c, suf.head? = some c → isIdChar c = false) := by
  unfold itemMatchAt at h
  split at h
  case h_2 => exact absurd h (by simp)
  case h_1 a b c d rest =>
    split at h
    case isFalse => exact absurd h (by simp)
    case isTrue hcond =>
      split at h
      case h_1 => exact absurd h (by simp)
      case h_2 x xs hxw =>
        injection h with hrun
        subst hrun
        refine ⟨['/', a, b, c, d, '/'], rest.dropWhile isIdChar, ?_, ?_, by simp, ?_, ?_⟩
        · have hsplit : rest = (x :: xs) ++ rest.dropWhile isIdChar := by
            rw [← hxw, List.takeWhile_append_dropWhile]
          conv_lhs => rw [hsplit]
          simp [List.append_assoc]
        · simpa [isItemMarker] using hcond
        · intro u hu
          exact List.mem_takeWhile_imp (hxw ▸ hu)
        · intro u hu
          exact head?_dropWhile hu

theorem itemMatchAt_none {l : List Char} (h : itemMatchAt l = none) :
    ∀ m c suf, l = m ++ c :: suf → isItemMarker m = true → isIdChar c = false := by
  intro m c suf hl hm
  obtain ⟨a, b, b2, d, rfl, hcond⟩ := isItemMarker_spec hm
  subst hl
  by_contra hc
  have hc2 : isIdChar c = true := by simpa using hc
  simp only [List.cons_append, List.nil_append, itemMatchAt] at h
  rw [List.takeWhile_cons_of_pos hc2] at h
  split at h
  · simp at h
  · simp_all

theorem itemIdScan_some {l run : List Char} (h : itemIdScan l = some run) :
    ∃ pre m suf, l = pre ++ m ++ run ++ suf ∧ isItemMarker m = true ∧ run ≠ [] ∧
      (∀ c ∈ run, isIdChar c) ∧ (∀ c, suf.head? = some c → isIdChar c = false) ∧
      (∀ pre2 m2 c2 suf2, l = pre2 ++ m2 ++ c2 :: suf2 → isItemMarker m2 = true →
        isIdChar c2 = true → pre.length ≤ pre2.length) := by
  induction l with
  | nil => simp [itemIdScan] at h
  | cons c rest ih =>
    rw [itemIdScan] at h
    cases hm : itemMatchAt (c :: rest) with
    | some run2 =>
      rw [hm] at h
      injection h with h
      subst h
      obtain ⟨m, suf, hdec, hmark, hne, hall, hsuf⟩ := itemMatchAt_some hm
      exact ⟨[], m, suf, by simpa using hdec, hmark, hne, hall, hsuf,
        fun pre2 m2 c2 suf2 _ _ _ => Nat.zero_le _⟩
    | none =>
      rw [hm] at h
      obtain ⟨pre, m, suf, hdec, hmark, hne, hall, hsuf, hleft⟩ := ih h
      refine ⟨c :: pre, m, suf, by simp [hdec], hmark, hne, hall, hsuf, ?_⟩
      intro pre2 m2 c2 suf2 heq hm2 hc2
      cases pre2 with
      | nil =>
        exfalso
        simp only [List.nil_append] at heq
        have := itemMatchAt_none hm m2 c2 suf2 (by simpa using heq) hm2
        rw [hc2] at this
        cases this
      | cons p ps =>
        simp only [List.cons_append, List.cons.injEq] at heq
        have := hleft ps m2 c2 suf2 heq.2 hm2 hc2
        simpa using Nat.succ_le_succ this

theorem itemIdScan_none {l : List Char} (h : itemIdScan l = none) :
    ∀ pre m c suf, l = pre ++ m ++ c :: suf → isItemMarker m = true → isIdChar c = false := by
  induction l with
  | nil =>
    intro pre m c suf heq hm
    obtain ⟨a, b, b2, d, rfl, -⟩ := isItemMarker_spec hm
    simp at heq
  | cons x rest ih =>
    intro pre m c suf heq hm
    rw [itemIdScan] at h
    cases hmx : itemMatchAt (x :: rest) with
    | some run2 => rw [hmx] at h; cases h
    | none =>
      rw [hmx] at h
      cases pre with
      | nil =>
        simp only [List.nil_append] at heq
        exact itemMatchAt_none hmx m c suf (by simpa using heq) hm
      | cons p ps =>
        simp only [List.cons_append, List.cons.injEq] at heq
        exact ih h ps m c suf heq.2 hm

theorem getItemId_some_props {u id : String} (h : getItemId u = some id) :
    id ≠ "" ∧ ∀ c ∈ id.data, isIdChar c := by
  unfold getItemId at h
  cases hp : parseUrl u with
  | none => rw [hp] at h; cases h
  | some parts =>
    rw [hp] at h
    dsimp only at h
    cases hs : itemIdScan parts.pathname with
    | none => rw [hs] at h; cases h
    | some run =>
      rw [hs] at h
      injection h with h
      subst h
      obtain ⟨-, -, -, -, -, hne, hall, -, -⟩ := itemIdScan_some hs
      constructor
      · intro hcon
        have := congrArg String.data hcon
        simp at this
        exact hne this
      · simpa using hall

theorem startsWithHttp_colon {s : String} (h : startsWithHttp s = true) : ':' ∈ s.data := by
  unfold startsWithHttp at h
  split at h
  · rename_i c0 c1 c2 c3 rest heq
    rw [heq]
    simp only [Bool.and_eq_true] at h
    have hrest := h.2
    revert hrest
    split
    · intro _; simp
    · intro _; simp
    · intro hcon; cases hcon
  · cases h

theorem getItemId_not_http {u id : String} (h : getItemId u = some id) :
    startsWithHttp id = false := by
  rw [← Bool.not_eq_true]
  intro hcon
  have hcolon := startsWithHttp_colon hcon
  have hall := (getItemId_some_props h).2
  have := hall ':' hcolon
  simp [isIdChar] at this

theorem migrateVal_of_getItemId {u id : String} (h : getItemId u = some id) :
    migrateVal id = id := by
  unfold migrateVal
  rw [getItemId_not_http h]
  simp

theorem migrateVal_idem (v : String) : migrateVal (migrateVal v) = migrateVal v := by
  unfold migrateVal
  cases hv : startsWithHttp v with
  | false => simp [hv]
  | true =>
    simp only [hv, if_true]
    cases hg : getItemId v with
    | none => simp [hv, hg]
    | some id =>
      simp only [Option.getD_some]
      rw [getItemId_not_http hg]
      simp

theorem knownIdsOf_nodup (prev : List String) : (knownIdsOf prev).Nodup :=
  dedupAux_nodup [] _

theorem mem_knownIdsOf {x : String} {prev : List String} :
    x ∈ knownIdsOf prev ↔ x ≠ "" ∧ ∃ v ∈ prev, migrateVal v = x := by
  unfold knownIdsOf dedupKeepFirst
  rw [mem_dedupAux]
  simp only [List.not_mem_nil, not_false_iff, and_true, List.mem_filter, List.mem_map,
    decide_eq_true_eq]
  tauto

theorem knownIdsOf_fixed {x : String} {prev : List String} (h : x ∈ knownIdsOf prev) :
    migrateVal x = x := by
  obtain ⟨-, v, -, hv⟩ := mem_knownIdsOf.mp h
  rw [← hv]
  exact migrateVal_idem v

theorem knownIdsOf_eq_self {l : List String} (hnd : l.Nodup)
    (hfix : ∀ x ∈ l, migrateVal x = x ∧ x ≠ "") : knownIdsOf l = l := by
  unfold knownIdsOf dedupKeepFirst
  have hmap : l.map migrateVal = l := by
    have h2 : l.map migrateVal = l.map id := List.map_congr_left fun x hx => (hfix x hx).1
    simpa using h2
  rw [hmap]
  have hfil : l.filter (fun s => s ≠ "") = l := by
    rw [List.filter_eq_self]
    intro a ha
    simpa using (hfix a ha).2
  rw [hfil]
  exact dedupAux_eq_self hnd (by simp)

theorem pollIds_cons (it : Item) (items : List Item) :
    pollIds (it :: items) =
      match getItemId it.link with
      | some id => id :: pollIds items
      | none => pollIds items := by
  unfold pollIds
  cases h : getItemId it.link <;> simp [List.filterMap_cons, h]

theorem collectIds_eq (items : List Item) :
    ∀ k : List String, collectIds k items = k ++ dedupAux k (pollIds items) := by
  induction items with
  | nil => intro k; simp [collectIds, pollIds, dedupAux]
  | cons it rest ih =>
    intro k
    have hstep : ∀ k2 : List String, collectIds k2 (it :: rest) =
        collectIds
          (match getItemId it.link with
           | some id => if k2.contains id then k2 else k2 ++ [id]
           | none => k2) rest := by
      intro k2
      unfold collectIds
      rw [List.foldl_cons]
    rw [hstep, pollIds_cons]
    cases h : getItemId it.link with
    | none =>
      dsimp only
      exact ih k
    | some id =>
      dsimp only
      cases hk : k.contains id with
      | true =>
        simp only [if_true]
        rw [ih k, dedupAux, hk]
        simp
      | false =>
        simp only [Bool.false_eq_true, if_false]
        rw [ih (k ++ [id])]
        rw [dedupAux, hk]
        simp [List.append_assoc]

set_option maxRecDepth 4096 in
theorem checkIfHasNewItem_write {items : List Item} {st : Option (List String)} {b : Bool}
    {arr : List String} (h : (checkIfHasNewItem items st b).2 = some arr) :
    arr = sliceLast cap (mergedIds (knownIdsOf (st.getD [])) (pollIds items)) := by
  unfold checkIfHasNewItem at h
  by_cases hcond : ((!st.isSome || (knownIdsOf (st.getD [])).isEmpty) && b) = true
  · rw [if_pos hcond] at h
    dsimp only at h
    rw [Option.some_inj] at h
    subst h
    have hknown : knownIdsOf (st.getD []) = [] := by
      simp only [Bool.and_eq_true, Bool.or_eq_true] at hcond
      rcases hcond.1 with hne | hemp
      · cases st with
        | none => rfl
        | some l => simp at hne
      · exact List.isEmpty_iff.mp hemp
    rw [collectIds_eq, hknown]
    simp [mergedIds]
  · rw [if_neg hcond] at h
    dsimp only at h
    by_cases hlen : items.length > 0
    · rw [if_pos hlen] at h
      rw [Option.some_inj] at h
      subst h
      rw [collectIds_eq]
      rfl
    · rw [if_neg hlen] at h
      cases h

/-- Condition under which `checkIfHasNewItem` takes its bootstrap branch. -/
def bootstrapTaken (st : Option (List String)) (b : Bool) : Bool :=
  (!st.isSome || (knownIdsOf (st.getD [])).isEmpty) && b

theorem checkIfHasNewItem_eq (items : List Item) (st : Option (List String)) (b : Bool) :
    checkIfHasNewItem items st b =
      if bootstrapTaken st b then ([], some (sliceLast cap (collectIds [] items)))
      else (newItemsOf (knownIdsOf (st.getD [])) items,
        if items.length > 0 then some (sliceLast cap (collectIds (knownIdsOf (st.getD [])) items))
        else none) := rfl

theorem bootstrapTaken_iff {st : Option (List String)} {b : Bool} :
    bootstrapTaken st b = true ↔ (st = none ∨ knownIdsOf (st.getD []) = []) ∧ b = true := by
  unfold bootstrapTaken
  simp only [Bool.and_eq_true, Bool.or_eq_true, Bool.not_eq_true']
  constructor
  · rintro ⟨hne | hemp, hb⟩
    · exact ⟨Or.inl (Option.not_isSome_iff_eq_none.mp (by simp [hne])), hb⟩
    · exact ⟨Or.inr (List.isEmpty_iff.mp hemp), hb⟩
  · rintro ⟨hne | hemp, hb⟩
    · subst hne; exact ⟨Or.inl rfl, hb⟩
    · exact ⟨Or.inr (by simp [hemp]), hb⟩

theorem newItemsOf_eq_nil {known : List String} {items : List Item}
    (h : ∀ x ∈ pollIds items, x ∈ known) : newItemsOf known items = [] := by
  unfold newItemsOf
  rw [List.filter_eq_nil_iff]
  intro it hit
  cases hid : getItemId it.link with
  | none => simp
  | some id =>
    have hmem : id ∈ known := h id (mem_pollIds.mpr ⟨it, hit, hid⟩)
    simp [List.elem_iff.mpr hmem]
    exact hmem

theorem newItemsOf_nil (known : List String) : newItemsOf known [] = [] := rfl

theorem check_nil_items (st : Option (List String)) (b : Bool) :
    (checkIfHasNewItem [] st b).1 = [] := by
  rw [checkIfHasNewItem_eq]
  cases h : bootstrapTaken st b <;> simp [h, newItemsOf_nil]

theorem mem_mergedIds {x : String} {known pids : List String} :
    x ∈ mergedIds known pids ↔ x ∈ known ∨ x ∈ pids := by
  unfold mergedIds
  rw [List.mem_append, mem_dedupAux]
  constructor
  · rintro (h | ⟨h, -⟩)
    · exact Or.inl h
    · exact Or.inr h
  · rintro (h | h)
    · exact Or.inl h
    · by_cases hk : x ∈ known
      · exact Or.inl hk
      · exact Or.inr ⟨h, hk⟩

theorem mergedIds_nodup {known : List String} (hnd : known.Nodup) (pids : List String) :
    (mergedIds known pids).Nodup := by
  unfold mergedIds
  rw [List.nodup_append]
  refine ⟨hnd, dedupAux_nodup _ _, ?_⟩
  intro x hx hx2
  exact (mem_dedupAux.mp hx2).2 hx

theorem mergedIds_elem_props {prev : List String} {items : List Item} :
    ∀ x ∈ mergedIds (knownIdsOf prev) (pollIds items), migrateVal x = x ∧ x ≠ "" := by
  intro x hx
  rcases mem_mergedIds.mp hx with hk | hp
  · exact ⟨knownIdsOf_fixed hk, (mem_knownIdsOf.mp hk).1⟩
  · obtain ⟨it, -, hid⟩ := mem_pollIds.mp hp
    exact ⟨migrateVal_of_getItemId hid, (getItemId_some_props hid).1⟩

theorem knownIdsOf_mergedIds {prev : List String} {items : List Item} :
    knownIdsOf (mergedIds (knownIdsOf prev) (pollIds items)) =
      mergedIds (knownIdsOf prev) (pollIds items) :=
  knownIdsOf_eq_self (mergedIds_nodup (knownIdsOf_nodup prev) _) mergedIds_elem_props

theorem write_none_items_nil {items : List Item} {st : Option (List String)} {b : Bool}
    (h : (checkIfHasNewItem items st b).2 = none) : items = [] := by
  rw [checkIfHasNewItem_eq] at h
  by_cases hb : bootstrapTaken st b = true
  · rw [if_pos hb] at h
    cases h
  · rw [if_neg hb] at h
    dsimp only at h
    by_cases hlen : items.length > 0
    · rw [if_pos hlen] at h
      cases h
    · have : items.length = 0 := by omega
      exact List.length_eq_zero.mp this

theorem stepState_of_write {items : List Item} {st : Option (List String)} {b : Bool}
    {arr : List String} (h : (checkIfHasNewItem items st b).2 = some arr) :
    stepState b st items = some arr := by
  unfold stepState applyWrite
  rw [h]

theorem stepState_of_no_write {items : List Item} {st : Option (List String)} {b : Bool}
    (h : (checkIfHasNewItem items st b).2 = none) : stepState b st items = st := by
  unfold stepState applyWrite
  rw [h]

/-- C2 (amended).  Idempotence of classification holds whenever the merged
known-id set fits the retention cap: starting from any persisted state whose
merged insertion order (stored ids plus this poll's ids) has at most 10000
entries, a second classify call with the same entry list, on the state the
first call persisted, reports no new entries.  (Without the cap hypothesis
the first call can evict the oldest stored identifier even though it was just
observed, making it "new" again on the second call.) -/
theorem classify_idempotent_within_cap (items : List Item) (st : Option (List String)) (b : Bool)
    (hcap : (mergedIds (knownIdsOf (st.getD [])) (pollIds items)).length ≤ cap) :
    (checkIfHasNewItem items (stepState b st items) b).1 = [] := by
  cases hw : (checkIfHasNewItem items st b).2 with
  | none =>
    rw [stepState_of_no_write hw]
    rw [write_none_items_nil hw]
    exact check_nil_items st b
  | some arr =>
    have harr : arr = mergedIds (knownIdsOf (st.getD [])) (pollIds items) := by
      rw [checkIfHasNewItem_write hw, sliceLast_of_le hcap]
    rw [stepState_of_write hw, checkIfHasNewItem_eq]
    by_cases hb : bootstrapTaken (some arr) b = true
    · rw [if_pos hb]
    · rw [if_neg hb]
      dsimp only
      apply newItemsOf_eq_nil
      intro x hx
      have hk : knownIdsOf ((some arr : Option (List String)).getD []) = arr := by
        rw [Option.getD_some, harr]
        exact knownIdsOf_mergedIds
      rw [hk, harr]
      exact mem_mergedIds.mpr (Or.inr hx)

/-! Concrete inputs used by the claim scenarios. -/

/-- Listing link carrying the given identifier. -/
def sampleItem (s : String) : Item :=
  ⟨"img", "https://www.yad2.co.il/realestate/item/" ++ s⟩

/-- Five-entry first poll of the bootstrap scenario. -/
def fiveItems : List Item :=
  [sampleItem "id1", sampleItem "id2", sampleItem "id3", sampleItem "id4", sampleItem "id5"]

/-- Identifiers persisted by the bootstrap scenario's first poll. -/
def fiveIds : List String := ["id1", "id2", "id3", "id4", "id5"]

/-- Second poll of the bootstrap scenario: two known entries plus one new. -/
def secondItems : List Item := [sampleItem "id1", sampleItem "id2", sampleItem "id9"]

/-- C1.  Bootstrap rule: with bootstrap enabled, a poll with no prior state
(or an empty loaded known-id set) persists exactly the deduplicated resolvable
identifiers of the poll, capped at the retention limit, and reports no new
entries; concretely, a first-ever poll with 5 resolvable entries persists
those 5 identifiers and reports 0 new entries, and a second poll with 2 of
them plus 1 new entry reports exactly that 1 new entry. -/
theorem bootstrap_rule (items : List Item) (st : Option (List String))
    (h : st = none ∨ knownIdsOf (st.getD []) = []) :
    checkIfHasNewItem items st true =
      ([], some (sliceLast cap (dedupKeepFirst (pollIds items)))) ∧
    checkIfHasNewItem fiveItems none true = ([], some fiveIds) ∧
    (checkIfHasNewItem secondItems (some fiveIds) true).1 = [sampleItem "id9"] := by
  refine ⟨?_, by decide, by decide⟩
  have hb : bootstrapTaken st true = true := bootstrapTaken_iff.mpr ⟨h, rfl⟩
  rw [checkIfHasNewItem_eq, if_pos hb, collectIds_eq]
  rfl

/-- C1 witness: the bootstrap rule evaluated on the five-entry first poll. -/
theorem bootstrap_rule_witness :
    checkIfHasNewItem fiveItems none true =
      ([], some (sliceLast cap (dedupKeepFirst (pollIds fiveItems)))) ∧
    checkIfHasNewItem fiveItems none true = ([], some fiveIds) ∧
    (checkIfHasNewItem secondItems (some fiveIds) true).1 = [sampleItem "id9"] :=
  bootstrap_rule fiveItems none (Or.inl rfl)

/-! Inputs exhibiting retention-cap eviction. -/

/-- Identifier consisting of `n + 1` letters `a`. -/
def aRun (n : Nat) : String :=
  String.mk (List.replicate (n + 1) 'a')

/-- Legacy state holding 10001 distinct identifiers (legacy files written by
the unbounded first iteration of the script can exceed the cap). -/
def bigPrev : List String :=
  (List.range 10001).map aRun

/-- Entry whose identifier `a` equals `aRun 0`, the oldest stored id. -/
def aItem : Item := ⟨"img", "https://h/item/a"⟩

theorem aRun_inj : Function.Injective aRun := by
  intro m n h
  have hd := congrArg String.data h
  simp only [aRun] at hd
  have := congrArg List.length hd
  simpa using this

theorem bigPrev_nodup : bigPrev.Nodup :=
  (List.nodup_range 10001).map aRun_inj

theorem aRun_not_http (n : Nat) : startsWithHttp (aRun n) = false := by
  rw [← Bool.not_eq_true]
  intro h
  have hmem := startsWithHttp_colon h
  simp only [aRun] at hmem
  rw [List.mem_replicate] at hmem
  cases hmem.2

theorem aRun_props (n : Nat) : migrateVal (aRun n) = aRun n ∧ aRun n ≠ "" := by
  constructor
  · unfold migrateVal
    rw [aRun_not_http]
    simp
  · intro h
    have := congrArg String.data h
    simp [aRun] at this

theorem knownIdsOf_bigPrev : knownIdsOf bigPrev = bigPrev :=
  knownIdsOf_eq_self bigPrev_nodup fun x hx => by
    obtain ⟨n, -, rfl⟩ := List.mem_map.mp hx
    exact aRun_props n

theorem getItemId_aItem : getItemId aItem.link = some (aRun 0) := by decide

theorem aRun0_mem_bigPrev : aRun 0 ∈ bigPrev :=
  List.mem_map.mpr ⟨0, List.mem_range.mpr (by omega), rfl⟩

theorem aRun0_not_mem_drop : aRun 0 ∉ bigPrev.drop 1 := by
  intro h
  have hcons : bigPrev = aRun 0 :: bigPrev.drop 1 := by
    unfold bigPrev
    rw [List.range_succ_eq_map]
    simp [List.map_map]
  have hnd := bigPrev_nodup
  rw [hcons] at hnd
  exact (List.nodup_cons.mp hnd).1 h

theorem bigPrev_length : bigPrev.length = 10001 := by
  simp [bigPrev]

theorem pollIds_aItem : pollIds [aItem] = [aRun 0] := by
  simp [pollIds, List.filterMap_cons, getItemId_aItem]

theorem bigPrev_not_isEmpty : bigPrev.isEmpty = false := by
  have hlen := bigPrev_length
  cases h : bigPrev with
  | nil => rw [h] at hlen; simp at hlen
  | cons x xs => simp

theorem first_call_bigPrev :
    checkIfHasNewItem [aItem] (some bigPrev) true = ([], some (bigPrev.drop 1)) := by
  rw [checkIfHasNewItem_eq]
  have hb : bootstrapTaken (some bigPrev) true = false := by
    unfold bootstrapTaken
    simp only [Option.isSome_some, Bool.not_true, Bool.false_or, Option.getD_some]
    rw [knownIdsOf_bigPrev, bigPrev_not_isEmpty]
    rfl
  rw [if_neg (by simp [hb])]
  dsimp only [Option.getD_some]
  rw [knownIdsOf_bigPrev]
  have hnew : newItemsOf bigPrev [aItem] = [] := by
    apply newItemsOf_eq_nil
    intro x hx
    rw [pollIds_aItem] at hx
    rw [List.mem_singleton.mp hx]
    exact aRun0_mem_bigPrev
  have hcoll : collectIds bigPrev [aItem] = bigPrev := by
    rw [collectIds_eq, pollIds_aItem]
    have hc : bigPrev.contains (aRun 0) = true := List.elem_iff.mpr aRun0_mem_bigPrev
    rw [dedupAux, hc]
    simp [dedupAux]
  rw [hnew, hcoll]
  have hslice : sliceLast cap bigPrev = bigPrev.drop 1 := by
    unfold sliceLast cap
    rw [bigPrev_length]
  rw [hslice]
  rfl

theorem drop_bigPrev_known : knownIdsOf (bigPrev.drop 1) = bigPrev.drop 1 :=
  knownIdsOf_eq_self (bigPrev_nodup.sublist (List.drop_sublist 1 bigPrev)) fun x hx => by
    obtain ⟨n, -, rfl⟩ := List.mem_map.mp (List.drop_subset 1 bigPrev hx)
    exact aRun_props n

theorem drop_bigPrev_not_isEmpty : (bigPrev.drop 1).isEmpty = false := by
  cases h : bigPrev.drop 1 with
  | nil =>
    have := congrArg List.length h
    rw [List.length_drop, bigPrev_length] at this
    simp at this
  | cons x xs => simp

/-- C2 counterexample.  The claim as stated (idempotence for every entry list
and every state) fails on the code: with 10001 distinct stored identifiers
and a poll containing the oldest of them, the first call's retention
truncation evicts that identifier, so the identical second call reports the
entry as new again. -/
theorem classify_twice_cap_cex :
    (checkIfHasNewItem [aItem] (stepState true (some bigPrev) [aItem]) true).1 = [aItem] ∧
    [aItem] ≠ ([] : List Item) := by
  refine ⟨?_, by simp⟩
  have hw : (checkIfHasNewItem [aItem] (some bigPrev) true).2 = some (bigPrev.drop 1) := by
    rw [first_call_bigPrev]
  rw [stepState_of_write hw, checkIfHasNewItem_eq]
  have hb : bootstrapTaken (some (bigPrev.drop 1)) true = false := by
    unfold bootstrapTaken
    simp only [Option.isSome_some, Bool.not_true, Bool.false_or, Option.getD_some]
    rw [drop_bigPrev_known, drop_bigPrev_not_isEmpty]
    rfl
  rw [if_neg (by rw [hb]; simp)]
  dsimp only [Option.getD_some]
  rw [drop_bigPrev_known]
  have hcont : (bigPrev.drop 1).contains (aRun 0) = false := by
    cases hc : (bigPrev.drop 1).contains (aRun 0) with
    | true => exact absurd (List.elem_iff.mp hc) aRun0_not_mem_drop
    | false => rfl
  unfold newItemsOf
  simp [List.filter_cons, getItemId_aItem, hcont]
  exact List.drop_one bigPrev ▸ aRun0_not_mem_drop

/-- C2 witness for the amended idempotence theorem: the five-entry poll from
no prior state satisfies the cap hypothesis and reports nothing on the second
call. -/
theorem classify_idempotent_witness :
    (mergedIds (knownIdsOf ((none : Option (List String)).getD []))
      (pollIds fiveItems)).length ≤ cap ∧
    (checkIfHasNewItem fiveItems (stepState true none fiveItems) true).1 = [] :=
  ⟨by decide, classify_idempotent_within_cap fiveItems none true (by decide)⟩

theorem runPolls_foldl_inv (b : Bool) :
    ∀ (polls : List (List Item)) (st : Option (List String)),
      (st.getD []).length ≤ cap → ((polls.foldl (stepState b) st).getD []).length ≤ cap := by
  intro polls
  induction polls with
  | nil => intro st h; exact h
  | cons p rest ih =>
    intro st h
    rw [List.foldl_cons]
    apply ih
    cases hw : (checkIfHasNewItem p st b).2 with
    | none => rw [stepState_of_no_write hw]; exact h
    | some arr =>
      rw [stepState_of_write hw]
      simp only [Option.getD_some]
      rw [checkIfHasNewItem_write hw]
      exact sliceLast_length_le _ _

/-- C3.  Retention cap: starting from no persisted state, after any sequence
of polls the persisted array never exceeds 10000 entries; moreover every
performed write equals the last 10000 elements of the merged insertion order
(stored ids first, newly added ids appended), so the most recently added
identifiers are kept and the evicted ones are exactly an initial (oldest)
segment of that order. -/
theorem retention_cap (b : Bool) (polls : List (List Item)) (items : List Item) :
    ((runPolls b polls).getD []).length ≤ cap ∧
    (∀ arr, (checkIfHasNewItem items (runPolls b polls) b).2 = some arr →
      arr = sliceLast cap
        (mergedIds (knownIdsOf ((runPolls b polls).getD [])) (pollIds items)) ∧
      arr.length ≤ cap ∧
      mergedIds (knownIdsOf ((runPolls b polls).getD [])) (pollIds items) =
        (mergedIds (knownIdsOf ((runPolls b polls).getD [])) (pollIds items)).take
          ((mergedIds (knownIdsOf ((runPolls b polls).getD [])) (pollIds items)).length - cap)
          ++ arr) := by
  constructor
  · exact runPolls_foldl_inv b polls none (by simp)
  · intro arr hw
    have harr := checkIfHasNewItem_write hw
    refine ⟨harr, harr ▸ sliceLast_length_le _ _, ?_⟩
    rw [harr]
    unfold sliceLast
    rw [List.take_append_drop]

/-- C3 witness: a bootstrap poll followed by a poll adding one new id stays
within the cap, and the second write is the whole merged order. -/
theorem retention_cap_witness :
    ((runPolls true [fiveItems]).getD []).length ≤ cap ∧
    (["id1", "id2", "id3", "id4", "id5", "id9"] : List String).length ≤ cap :=
  ⟨(retention_cap true [fiveItems] secondItems).1,
   ((retention_cap true [fiveItems] secondItems).2 _ (by decide)).2.1⟩

theorem check_write_isSome {items : List Item} {st : Option (List String)} {b : Bool}
    (h : items ≠ []) : ((checkIfHasNewItem items st b).2).isSome = true := by
  rw [checkIfHasNewItem_eq]
  by_cases hb : bootstrapTaken st b = true
  · rw [if_pos hb]
    rfl
  · rw [if_neg hb]
    dsimp only
    rw [if_pos (List.length_pos.mpr h)]
    rfl

/-- C10.  Frame effects of `checkIfHasNewItem` on the persisted file: the
bootstrap branch writes even for an empty entry list (persisting an empty
array, which creates the file); outside the bootstrap branch an empty entry
list performs no write at all; and outside the bootstrap branch any non-empty
entry list is written, whether or not any entry is new. -/
theorem write_frame (st : Option (List String)) (b : Bool) (items : List Item) :
    (bootstrapTaken st b = true → (checkIfHasNewItem [] st b).2 = some []) ∧
    (bootstrapTaken st b = false → (checkIfHasNewItem [] st b).2 = none) ∧
    (bootstrapTaken st b = false → items ≠ [] →
      ((checkIfHasNewItem items st b).2).isSome = true) := by
  refine ⟨fun hb => ?_, fun hb => ?_, fun _ h => check_write_isSome h⟩
  · rw [checkIfHasNewItem_eq, if_pos hb]
    rfl
  · rw [checkIfHasNewItem_eq, if_neg (by rw [hb]; simp)]
    rfl

/-- C10 witness: a first-ever empty poll creates an empty file; an empty poll
on existing state writes nothing; a poll with only already-known entries still
rewrites the file. -/
theorem write_frame_witness :
    (checkIfHasNewItem [] none true).2 = some [] ∧
    (checkIfHasNewItem [] (some fiveIds) true).2 = none ∧
    ((checkIfHasNewItem fiveItems (some fiveIds) true).2).isSome = true :=
  ⟨(write_frame none true fiveItems).1 (by decide),
   (write_frame (some fiveIds) true fiveItems).2.1 (by decide),
   (write_frame (some fiveIds) true fiveItems).2.2 (by decide) (by decide)⟩

theorem migrateVal_ne_empty_of_http {v : String} (h : startsWithHttp v = true) :
    migrateVal v ≠ "" := by
  unfold migrateVal
  rw [h, if_pos rfl]
  cases hg : getItemId v with
  | some id => simpa using (getItemId_some_props hg).1
  | none =>
    simp only [Option.getD_none]
    intro hv
    rw [hv] at h
    cases h

/-- C4 counterexample.  The claim as stated fails on the code: with a
persisted array of one full (extractable) link and an empty input entry list,
the classify call performs no write, so the persisted array still holds the
raw link rather than its extracted identifier. -/
theorem migration_persist_cex :
    stepState true (some ["https://www.yad2.co.il/item/abc"]) [] =
      some ["https://www.yad2.co.il/item/abc"] ∧
    getItemId "https://www.yad2.co.il/item/abc" = some "abc" ∧
    "https://www.yad2.co.il/item/abc" ≠ "abc" := by decide

/-- C4 (amended).  Legacy-migration correctness for a classify call that
actually writes: given a persisted array of full link strings, a non-empty
input entry list, and a merged id count within the retention cap, the call
persists an array whose every element is either the migration image of a
stored link (its extracted id, or the original string when extraction fails)
or a polled id, every previously stored link is represented under its
migrated identity, and the migration map is idempotent. -/
theorem migration_correct (prev : List String) (items : List Item) (b : Bool)
    (hlinks : ∀ v ∈ prev, startsWithHttp v = true) (hne : items ≠ [])
    (hcap : (mergedIds (knownIdsOf prev) (pollIds items)).length ≤ cap) :
    ∃ arr, (checkIfHasNewItem items (some prev) b).2 = some arr ∧
      (∀ x ∈ arr, (∃ v ∈ prev, migrateVal v = x) ∨ x ∈ pollIds items) ∧
      (∀ v ∈ prev, migrateVal v ∈ arr) ∧
      (∀ v, migrateVal (migrateVal v) = migrateVal v) := by
  have hsome : ((checkIfHasNewItem items (some prev) b).2).isSome = true :=
    check_write_isSome hne
  obtain ⟨arr, hw⟩ := Option.isSome_iff_exists.mp hsome
  have harr : arr = mergedIds (knownIdsOf prev) (pollIds items) := by
    have := checkIfHasNewItem_write hw
    rwa [Option.getD_some, sliceLast_of_le hcap] at this
  refine ⟨arr, hw, ?_, ?_, fun v => migrateVal_idem v⟩
  · intro x hx
    rw [harr] at hx
    rcases mem_mergedIds.mp hx with hk | hp
    · obtain ⟨-, v, hv, hvx⟩ := mem_knownIdsOf.mp hk
      exact Or.inl ⟨v, hv, hvx⟩
    · exact Or.inr hp
  · intro v hv
    rw [harr]
    apply mem_mergedIds.mpr
    apply Or.inl
    apply mem_knownIdsOf.mpr
    exact ⟨migrateVal_ne_empty_of_http (hlinks v hv), v, hv, rfl⟩

/-- C4 witness: one stored full link plus a one-entry poll satisfies the
amended migration theorem's hypotheses. -/
theorem migration_correct_witness :
    ∃ arr, (checkIfHasNewItem [sampleItem "idX"]
        (some ["https://www.yad2.co.il/item/abc"]) true).2 = some arr ∧
      (∀ x ∈ arr, (∃ v ∈ ["https://www.yad2.co.il/item/abc"], migrateVal v = x) ∨
        x ∈ pollIds [sampleItem "idX"]) ∧
      (∀ v ∈ ["https://www.yad2.co.il/item/abc"], migrateVal v ∈ arr) ∧
      (∀ v, migrateVal (migrateVal v) = migrateVal v) :=
  migration_correct ["https://www.yad2.co.il/item/abc"] [sampleItem "idX"] true
    (by decide) (by decide) (by decide)

/-! Lemmas about the page-aggregation loop. -/

theorem contains_eq_false_of_not_mem {x : String} {l : List String} (h : x ∉ l) :
    l.contains x = false := by
  cases hc : l.contains x with
  | true => exact absurd (List.elem_iff.mp hc) h
  | false => rfl

theorem aggStep_eq : ∀ (items : List Item) (seen : List String) (agg : List Item),
    aggStep seen agg items = (seenAfter seen items, agg ++ dedupItemsFrom seen items) := by
  intro items
  induction items with
  | nil => intro seen agg; simp [aggStep, seenAfter, dedupItemsFrom]
  | cons it rest ih =>
    intro seen agg
    rw [aggStep, seenAfter, dedupItemsFrom]
    cases hid : getItemId it.link with
    | none => exact ih seen agg
    | some id =>
      by_cases hmem : id ∈ seen
      · have hc : seen.contains id = true := List.elem_iff.mpr hmem
        simp [hc, hmem, ih]
      · have hc : seen.contains id = false := contains_eq_false_of_not_mem hmem
        simp [hc, hmem, ih]

theorem dedupItemsFrom_append (l₁ l₂ : List Item) :
    ∀ seen, dedupItemsFrom seen (l₁ ++ l₂) =
      dedupItemsFrom seen l₁ ++ dedupItemsFrom (seenAfter seen l₁) l₂ := by
  induction l₁ with
  | nil => intro seen; simp [dedupItemsFrom, seenAfter]
  | cons it rest ih =>
    intro seen
    rw [List.cons_append, dedupItemsFrom, dedupItemsFrom, seenAfter]
    cases hid : getItemId it.link with
    | none => exact ih seen
    | some id =>
      by_cases hmem : id ∈ seen
      · have hc : seen.contains id = true := List.elem_iff.mpr hmem
        simp [hc, hmem, ih]
      · have hc : seen.contains id = false := contains_eq_false_of_not_mem hmem
        simp [hc, hmem, ih]

theorem collectGo_eq (t : String → FetchResult) (base : String) (maxPages : Nat) :
    ∀ (r p : Nat) (pageUrl : String) (usedNext : Bool) (seen : List String) (agg : List Item),
      collectGo t base maxPages r p pageUrl usedNext seen agg =
        agg ++ dedupItemsFrom seen (visitGo t base maxPages r p pageUrl usedNext) := by
  intro r
  induction r with
  | zero => intro p pageUrl usedNext seen agg; simp [collectGo, visitGo, dedupItemsFrom]
  | succ r ih =>
    intro p pageUrl usedNext seen agg
    rw [collectGo, visitGo]
    cases hfetch : t (if usedNext then pageUrl else buildPageUrl base p) with
    | fail =>
      dsimp only
      exact ih (p + 1) pageUrl usedNext seen agg
    | ok items nextUrl =>
      dsimp only
      rw [aggStep_eq]
      cases nextUrl with
      | some nu =>
        dsimp only
        by_cases hp : p < maxPages
        · rw [if_pos hp, if_pos hp, ih (p + 1) nu true, dedupItemsFrom_append]
          simp
        · rw [if_neg hp, if_neg hp, ih (p + 1) pageUrl usedNext, dedupItemsFrom_append]
          simp
      | none =>
        cases usedNext with
        | true =>
          dsimp only
          simp [dedupItemsFrom_append, dedupItemsFrom]
        | false =>
          dsimp only
          simp only [Bool.false_eq_true, if_false]
          rw [ih (p + 1) pageUrl false, dedupItemsFrom_append]
          simp

theorem dedupItemsFrom_props : ∀ (l : List Item) (seen : List String),
    (∀ it ∈ dedupItemsFrom seen l, (getItemId it.link).isSome = true) ∧
    (pollIds (dedupItemsFrom seen l)).Nodup ∧
    (∀ x ∈ pollIds (dedupItemsFrom seen l), x ∉ seen) := by
  intro l
  induction l with
  | nil => intro seen; simp [dedupItemsFrom, pollIds]
  | cons it rest ih =>
    intro seen
    rw [dedupItemsFrom]
    cases hid : getItemId it.link with
    | none => exact ih seen
    | some id =>
      by_cases hmem : id ∈ seen
      · have hc : seen.contains id = true := List.elem_iff.mpr hmem
        simp only [hc, if_true]
        exact ih seen
      · have hc : seen.contains id = false := contains_eq_false_of_not_mem hmem
        simp only [hc, Bool.false_eq_true, if_false]
        obtain ⟨hres, hnd, hdisj⟩ := ih (seen ++ [id])
        have hpoll : pollIds (it :: dedupItemsFrom (seen ++ [id]) rest) =
            id :: pollIds (dedupItemsFrom (seen ++ [id]) rest) := by
          rw [pollIds_cons, hid]
        refine ⟨?_, ?_, ?_⟩
        · intro it2 hit2
          rcases List.mem_cons.mp hit2 with rfl | h
          · rw [hid]; rfl
          · exact hres it2 h
        · rw [hpoll]
          refine List.nodup_cons.mpr ⟨fun hmem2 => ?_, hnd⟩
          exact hdisj id hmem2 (List.mem_append_right _ (List.mem_singleton.mpr rfl))
        · rw [hpoll]
          intro x hx hxs
          rcases List.mem_cons.mp hx with rfl | h
          · exact hmem hxs
          · exact hdisj x h (List.mem_append_left _ hxs)

/-- C5.  Page-aggregation dedupe: the aggregate of a run equals the id-level
first-seen deduplication of all items of the successfully fetched pages in
visit order, so overlapping pages contribute each extractable identifier
exactly once, in first-seen order, every aggregated entry has a resolvable
identifier, and unresolvable entries are excluded. -/
theorem page_dedupe (t : String → FetchResult) (baseUrl : String) (maxPages : Nat) :
    collectItemsAcrossPages t baseUrl maxPages =
      dedupItemsFrom [] (visitItems t baseUrl maxPages) ∧
    (∀ it ∈ collectItemsAcrossPages t baseUrl maxPages, (getItemId it.link).isSome = true) ∧
    (pollIds (collectItemsAcrossPages t baseUrl maxPages)).Nodup := by
  have heq : collectItemsAcrossPages t baseUrl maxPages =
      dedupItemsFrom [] (visitItems t baseUrl maxPages) := by
    unfold collectItemsAcrossPages visitItems
    rw [collectGo_eq]
    simp
  refine ⟨heq, ?_, ?_⟩
  · rw [heq]
    exact (dedupItemsFrom_props _ []).1
  · rw [heq]
    exact (dedupItemsFrom_props _ []).2.1

/-- Two-page fetcher whose pages overlap on identifier `b` and include one
entry with no extractable identifier. -/
def overlapFetch : String → FetchResult := fun u =>
  if u = "https://h/feed" then
    .ok [sampleItem "a", sampleItem "b", ⟨"img", "https://h/nope"⟩] none
  else if u = "https://h/feed?page=2" then .ok [sampleItem "b", sampleItem "c"] none
  else .fail

/-- C5 witness: on the overlapping two-page run the aggregate lists each
identifier exactly once, in first-seen order, excluding the unresolvable
entry, and its identifier list is duplicate-free. -/
theorem page_dedupe_witness :
    collectItemsAcrossPages overlapFetch "https://h/feed" 2 =
      [sampleItem "a", sampleItem "b", sampleItem "c"] ∧
    (pollIds (collectItemsAcrossPages overlapFetch "https://h/feed" 2)).Nodup :=
  ⟨by decide, (page_dedupe overlapFetch "https://h/feed" 2).2.2⟩

/-- C9.  Target URL after a failed page: in follow-next-link mode a fetch
failure leaves the carried next-link URL unchanged, so the next iteration
fetches the same URL again (and the aggregation state also passes through
unchanged); in query-parameter mode the iteration after a failed page `p`
targets the URL built for page `p + 1`. -/
theorem failed_page_target (t : String → FetchResult) (base : String) (maxPages : Nat)
    (r p : Nat) (u pageUrl : String) (seen : List String) (agg : List Item) :
    (t u = .fail →
      fetchedUrlsGo t base maxPages (r + 2) p u true =
        u :: u :: fetchedUrlsGo t base maxPages r (p + 2) u true ∧
      collectGo t base maxPages (r + 1) p u true seen agg =
        collectGo t base maxPages r (p + 1) u true seen agg) ∧
    (t (buildPageUrl base p) = .fail →
      (fetchedUrlsGo t base maxPages (r + 2) p pageUrl false).take 2 =
        [buildPageUrl base p, buildPageUrl base (p + 1)] ∧
      collectGo t base maxPages (r + 1) p pageUrl false seen agg =
        collectGo t base maxPages r (p + 1) pageUrl false seen agg) := by
  constructor
  · intro hfail
    constructor
    · rw [fetchedUrlsGo]
      simp only [if_true, hfail]
      rw [fetchedUrlsGo]
      simp only [if_true, hfail]
    · rw [collectGo]
      simp only [if_true, hfail]
  · intro hfail
    constructor
    · rw [fetchedUrlsGo]
      simp only [Bool.false_eq_true, if_false, hfail]
      rw [fetchedUrlsGo]
      simp only [Bool.false_eq_true, if_false]
      rfl
    · rw [collectGo]
      simp only [Bool.false_eq_true, if_false, hfail]

/-- Fetcher that fails on every URL. -/
def failFetch : String → FetchResult := fun _ => .fail

/-- C9 witness: with an always-failing fetcher, follow mode re-targets the
same carried next-link URL, while query-parameter mode targets the URL built
for the next page number. -/
theorem failed_page_target_witness :
    (fetchedUrlsGo failFetch "https://h/feed" 5 (2 + 2) 2 "https://h/next" true =
      "https://h/next" :: "https://h/next" ::
        fetchedUrlsGo failFetch "https://h/feed" 5 2 (2 + 2) "https://h/next" true) ∧
    ((fetchedUrlsGo failFetch "https://h/feed" 5 (2 + 2) 2 "pu" false).take 2 =
      [buildPageUrl "https://h/feed" 2, buildPageUrl "https://h/feed" (2 + 1)]) :=
  ⟨((failed_page_target failFetch "https://h/feed" 5 2 2 "https://h/next" "pu" [] []).1 rfl).1,
   ((failed_page_target failFetch "https://h/feed" 5 2 2 "https://h/next" "pu" [] []).2 rfl).1⟩

/-! Lemmas about the rate-limited sender. -/

theorem safeSendGo_exhaust (t : Nat → SendOutcome) (m : Nat)
    (hall : ∀ i, i ≤ m → ∃ e, t i = .err e ∧ e.status = some 429) :
    ∀ (fuel attempt : Nat) (sleeps : List Nat), attempt + fuel = m + 1 → attempt ≤ m →
      ∃ e sl, t m = .err e ∧ safeSendGo t m fuel attempt sleeps = (Except.error e, sl) ∧
        sl.length = sleeps.length + (m - attempt) := by
  intro fuel
  induction fuel with
  | zero => intro attempt sleeps hinv hle; omega
  | succ fuel ih =>
    intro attempt sleeps hinv hle
    obtain ⟨e, he, hst⟩ := hall attempt hle
    rw [safeSendGo, he]
    dsimp only
    by_cases hlt : attempt < m
    · rw [if_pos ⟨hst, hlt⟩]
      obtain ⟨e2, sl, ht, heq, hlen⟩ := ih (attempt + 1) (sleeps ++ [backoffMs e attempt])
        (by omega) (by omega)
      refine ⟨e2, sl, ht, heq, ?_⟩
      rw [hlen]
      simp only [List.length_append, List.length_singleton]
      omega
    · rw [if_neg (fun hcon => hlt hcon.2)]
      have hm : attempt = m := by omega
      subst hm
      exact ⟨e, sleeps, he, rfl, by omega⟩

/-- C7.  Retry policy of the rate-limited sender: an error whose status is
not 429 is re-raised immediately with no sleep and no retry; if every attempt
up to the retry ceiling fails with status 429, the last rate-limit error is
re-raised after exactly `maxRetries` sleeps; and a 429 error carrying a
finite non-zero server wait hint of `s` seconds followed by a success causes
exactly one sleep of `s * 1000` milliseconds (the hint, not the exponential
fallback). -/
theorem retry_policy :
    (∀ (t : Nat → SendOutcome) (m : Nat) (e : SendErr), t 0 = .err e →
      e.status ≠ some 429 → safeSend t m = (Except.error e, [])) ∧
    (∀ (t : Nat → SendOutcome) (m : Nat),
      (∀ i, i ≤ m → ∃ e, t i = .err e ∧ e.status = some 429) →
      ∃ e sl, t m = .err e ∧ safeSend t m = (Except.error e, sl) ∧ sl.length = m) ∧
    (∀ (t : Nat → SendOutcome) (m : Nat) (e : SendErr) (s : Nat), 0 < m → t 0 = .err e →
      e.status = some 429 → e.retryAfterParam = some s → s ≠ 0 → t 1 = .ok →
      safeSend t m = (Except.ok (), [s * 1000])) := by
  refine ⟨?_, ?_, ?_⟩
  · intro t m e h0 hst
    unfold safeSend
    rw [safeSendGo, h0]
    dsimp only
    rw [if_neg (fun hcon => hst hcon.1)]
  · intro t m hall
    obtain ⟨e, sl, ht, heq, hlen⟩ :=
      safeSendGo_exhaust t m hall (m + 1) 0 [] (by omega) (by omega)
    exact ⟨e, sl, ht, heq, by simpa using hlen⟩
  · intro t m e s hm h0 hst hparam hs h1
    unfold safeSend
    rw [safeSendGo, h0]
    dsimp only
    rw [if_pos ⟨hst, hm⟩]
    have hback : backoffMs e 0 = s * 1000 := by
      unfold backoffMs effectiveRetryAfter
      rw [hparam]
      dsimp only
      rw [if_neg hs]
    rw [hback]
    cases m with
    | zero => omega
    | succ m2 =>
      rw [safeSendGo, h1]
      simp

/-- Transport erring once with a 429 and a 2-second wait hint, then
succeeding. -/
def tHint : Nat → SendOutcome :=
  fun n => if n = 0 then .err ⟨some 429, some 2, none⟩ else .ok

/-- Transport failing permanently with a server error. -/
def tServerErr : Nat → SendOutcome :=
  fun _ => .err ⟨some 500, some 2, none⟩

/-- C7 witness: a 500 error is re-raised at once with no sleep, and a 429
with a 2-second hint sleeps exactly once for 2000 ms before the successful
retry. -/
theorem retry_policy_witness :
    safeSend tServerErr 5 = (Except.error ⟨some 500, some 2, none⟩, []) ∧
    safeSend tHint 5 = (Except.ok (), [2 * 1000]) :=
  ⟨retry_policy.1 tServerErr 5 ⟨some 500, some 2, none⟩ rfl (by decide),
   retry_policy.2.2 tHint 5 ⟨some 429, some 2, none⟩ 2 (by decide) rfl rfl rfl (by decide) rfl⟩

/-- C8.  Identity extraction: `getItemId` is a total Lean function (purity and
totality hold by construction); it yields `none` whenever the link does not
parse as a URL; when it yields an identifier, that identifier is verbatim
(case preserved) the leftmost non-empty run of letters, digits, hyphen or
underscore following a (case-insensitive, per the regex `i` flag) `/item/`
marker in the pathname, maximal on the right; when it yields `none`, no such
marker-plus-identifier occurs anywhere in the pathname; the result depends
only on the pathname, and the two links differing only in query parameters
both yield `ABC123`. -/
theorem identity_extraction :
    (∀ u : String, parseUrl u = none → getItemId u = none) ∧
    (∀ (u : String) (parts : UrlParts) (id : String), parseUrl u = some parts →
      getItemId u = some id →
      ∃ pre m suf, parts.pathname = pre ++ m ++ id.data ++ suf ∧ isItemMarker m = true ∧
        id.data ≠ [] ∧ (∀ c ∈ id.data, isIdChar c = true) ∧
        (∀ c, suf.head? = some c → isIdChar c = false) ∧
        (∀ pre2 m2 c2 suf2, parts.pathname = pre2 ++ m2 ++ c2 :: suf2 →
          isItemMarker m2 = true → isIdChar c2 = true → pre.length ≤ pre2.length)) ∧
    (∀ (u : String) (parts : UrlParts), parseUrl u = some parts → getItemId u = none →
      ∀ pre m c suf, parts.pathname = pre ++ m ++ c :: suf → isItemMarker m = true →
        isIdChar c = false) ∧
    (∀ (u1 u2 : String) (p1 p2 : UrlParts), parseUrl u1 = some p1 → parseUrl u2 = some p2 →
      p1.pathname = p2.pathname → getItemId u1 = getItemId u2) ∧
    (getItemId "https://www.yad2.co.il/realestate/item/ABC123?x=1" = some "ABC123" ∧
     getItemId "https://www.yad2.co.il/realestate/item/ABC123?y=2" = some "ABC123") := by
  refine ⟨?_, ?_, ?_, ?_, by decide⟩
  · intro u h
    unfold getItemId
    rw [h]
  · intro u parts id hp hid
    unfold getItemId at hid
    rw [hp] at hid
    dsimp only at hid
    cases hs : itemIdScan parts.pathname with
    | none => rw [hs] at hid; cases hid
    | some run =>
      rw [hs, Option.map_some'] at hid
      rw [Option.some_inj] at hid
      subst hid
      exact itemIdScan_some hs
  · intro u parts hp hid
    unfold getItemId at hid
    rw [hp] at hid
    dsimp only at hid
    cases hs : itemIdScan parts.pathname with
    | some run => rw [hs, Option.map_some'] at hid; cases hid
    | none => exact itemIdScan_none hs
  · intro u1 u2 p1 p2 h1 h2 hpath
    unfold getItemId
    rw [h1, h2]
    dsimp only
    rw [hpath]

/-- C8 witness: the two query-variant links evaluate to `ABC123`, and an
unparseable string evaluates to `none` through the parse-failure clause. -/
theorem identity_extraction_witness :
    getItemId "https://www.yad2.co.il/realestate/item/ABC123?x=1" = some "ABC123" ∧
    getItemId "https://www.yad2.co.il/realestate/item/ABC123?y=2" = some "ABC123" ∧
    getItemId "not a url" = none :=
  ⟨identity_extraction.2.2.2.2.1, identity_extraction.2.2.2.2.2,
   identity_extraction.1 "not a url" (by decide)⟩

set_option maxRecDepth 8192 in
/-- C6 (code bug).  Evaluation of the batcher at the failing input: with
`maxChars = 100` and a 20-character header, the line list `[10 × 'a',
200 × 'b']` renders to messages of lengths 43 and 233 — the 200-character
line arrives while the current chunk is non-empty, is carried into its own
chunk untruncated, and the rendered message exceeds `maxChars`, contradicting
the guaranteed bound (and the function's own stated contract).  The
30 × 10-character scenario from the claim does hold: 10 chunks (at least the
required 9), every rendered message within 100 characters. -/
theorem batching_budget_bug :
    (notifyMessages [String.mk (List.replicate 10 'a'), String.mk (List.replicate 200 'b')]
        (String.mk (List.replicate 20 'h')) 100).map String.length = [43, 233] ∧
    ¬ (∀ msg ∈ notifyMessages [String.mk (List.replicate 10 'a'),
        String.mk (List.replicate 200 'b')] (String.mk (List.replicate 20 'h')) 100,
        msg.length ≤ 100) ∧
    9 ≤ (chunkLinesByChars (List.replicate 30 (String.mk (List.replicate 10 'c')))
        (String.mk (List.replicate 20 'h')) 100).length ∧
    (∀ msg ∈ notifyMessages (List.replicate 30 (String.mk (List.replicate 10 'c')))
        (String.mk (List.replicate 20 'h')) 100, msg.length ≤ 100) := by
  refine ⟨by decide, by decide, by decide, by decide⟩
